import Mathlib

/-!
Verification of the genomic variant store of this repository:
the ingestion pipeline (`add-variants.py`) and the query engine
(`workflow_agents/variant_agent.py`), shallowly embedded in Lean.

Conventions of the embedding:
* Python values read dynamically from the decoded JSON stream are modelled
  by `PyAtom` / `PyVal`.  The stream decoder (ijson) yields `None`, `bool`,
  `int`, `decimal.Decimal` (for fractional JSON numbers), `str`, lists and
  dicts; `Decimal` and any (hypothetical) `float` are modelled as rationals.
* A Python `dict.get("k")` chain is modelled by an `Option` field of a
  structure; `none` covers both an absent key and an explicit JSON null,
  which `dict.get` does not distinguish.
* SQL `DOUBLE` columns are modelled as rationals: every claim about them
  involves only defaulting and order comparison, never rounding.
-/

/-- An atomic Python value as produced by the JSON stream decoder.
`pcomposite` stands for a nested list or dict value, of which only the
Python truthiness (non-emptiness) is retained: no claim inspects deeper. -/
inductive PyAtom where
  | pnone : PyAtom
  | pbool (b : Bool) : PyAtom
  | pint (n : Int) : PyAtom
  | pdec (q : ℚ) : PyAtom
  | pfloat (q : ℚ) : PyAtom
  | pstr (s : String) : PyAtom
  | pcomposite (truthyFlag : Bool) : PyAtom
deriving DecidableEq, Repr

/-- A Python value that may additionally be a flat list of atoms (the shape
of the `alleleDepths` field; nested lists/dicts inside it appear as
`pcomposite` atoms). -/
inductive PyVal where
  | atom (a : PyAtom) : PyVal
  | plist (xs : List PyAtom) : PyVal
deriving DecidableEq, Repr

/-- Python truthiness of an atomic value (`if x:`). -/
def PyAtom.truthy : PyAtom → Bool
  | .pnone => false
  | .pbool b => b
  | .pint n => n ≠ 0
  | .pdec q => q ≠ 0
  | .pfloat q => q ≠ 0
  | .pstr s => s ≠ ""
  | .pcomposite t => t

/-- Python `isinstance(x, (int, float))`.  `bool` is a subclass of `int` in
Python, so booleans pass the check; `decimal.Decimal` — how the stream
decoder represents fractional JSON numbers — is neither `int` nor `float`
and fails it. -/
def PyAtom.is_int_or_float : PyAtom → Bool
  | .pint _ => true
  | .pbool _ => true
  | .pfloat _ => true
  | _ => false

/-- Python `int(x)` on a value passing `is_int_or_float`: identity on ints,
`True ↦ 1 / False ↦ 0`, truncation toward zero on floats; `0` otherwise
(unreachable after the filter). -/
def PyAtom.toPyInt : PyAtom → Int
  | .pint n => n
  | .pbool b => if b then 1 else 0
  | .pfloat q => if 0 ≤ q then ⌊q⌋ else ⌈q⌉
  | _ => 0

/-- Python `s.replace(oldc, newc)` for one-character arguments: substitute
every occurrence of the character, position by position. -/
def replaceChar (s : String) (oldc newc : Char) : String :=
  ⟨s.data.map (fun c => if c = oldc then newc else c)⟩

/-- Genotype normalization from `build_variant_record`:
`genotype.replace("|", "/").replace(".", "0")` applied only when the value
is a string; any non-string value passes through unchanged. -/
def normalizeGenotype : PyAtom → PyAtom
  | .pstr s => .pstr (replaceChar (replaceChar s '|' '/') '.' '0')
  | a => a

/-- Set-as-list insertion: Python `set.add`, keeping first-insertion order
as the iteration order of the modelled set. -/
def insertOnce {α : Type} [DecidableEq α] (l : List α) (a : α) : List α :=
  if a ∈ l then l else l ++ [a]

/-- Python `set.update(xs)`: fold `insertOnce` over the new elements. -/
def insertAll {α : Type} [DecidableEq α] (l : List α) (xs : List α) : List α :=
  xs.foldl insertOnce l

/-- One transcript entry of a raw variant.  `hgnc` and `transcript` are the
string-or-absent fields read by `transcript.get("hgnc")` and
`transcript.get("transcript")`; `isCanonical` keeps its dynamic Python type
because only its truthiness is consulted; `consequence` is the term list
read by `transcript.get("consequence", [])`. -/
structure Transcript where
  hgnc : Option String
  isCanonical : PyAtom
  transcript : Option String
  consequence : List String
deriving DecidableEq, Repr

/-- One external clinical-annotation entry.  `classification` collapses the
chain `entry.get("classifications", {}).get("germlineClassification",
{}).get("classification")`. -/
structure ClinvarEntry where
  classification : Option String
deriving DecidableEq, Repr

/-- The population-frequency annotation; `allAf` models
`variant.get("gnomad", {}).get("allAf")` once the outer dict is present. -/
structure GnomadAnn where
  allAf : Option ℚ
deriving DecidableEq, Repr

/-- A raw variant as decoded from the stream, restricted to the fields read
by `build_variant_record`.  `beginPos`/`endPos` model the JSON keys
`begin`/`end`. -/
structure RawVariant where
  vid : Option String
  beginPos : Option Int
  endPos : Option Int
  refAllele : Option String
  altAllele : Option String
  variantType : Option String
  transcripts : List Transcript
  gnomad : Option GnomadAnn
  clinvarPreview : List ClinvarEntry
deriving DecidableEq, Repr

/-- One sample genotype observation.  `genotype` keeps its dynamic type
(the code checks `isinstance(genotype, str)`); `alleleDepths` may be a
list or any non-list value. -/
structure Sample where
  genotype : PyAtom
  genotypeQuality : Option ℚ
  totalDepth : Option Int
  alleleDepths : PyVal
deriving DecidableEq, Repr

/-- The empty sample `{}` substituted when a positional sample is absent:
every `get` on it yields `None`. -/
def emptySample : Sample :=
  ⟨.pnone, none, none, .atom .pnone⟩

/-- A decoded position object, restricted to the fields read by the
ingestion pipeline. -/
structure Position where
  chromosome : Option String
  position : Option Int
  quality : Option ℚ
  samples : List Sample
  variants : List RawVariant
deriving DecidableEq, Repr

/-- The flattened, persisted variant row, mirroring the dict returned by
`build_variant_record` and the columns of the `variants` table.  The four
set-valued columns are nullable in the schema, hence `Option`; `raw` holds
the original variant payload (serialized verbatim by the code, kept as the
structured value here). -/
structure VariantRecord where
  vid : Option String
  chromosome : Option String
  variant_index : Int
  position : Option Int
  quality : Option ℚ
  begin_pos : Option Int
  end_pos : Option Int
  ref_allele : Option String
  alt_allele : Option String
  genotype : PyAtom
  genotype_quality : Option ℚ
  total_depth : Option Int
  allele_depths : List Int
  maternal_genotype : PyAtom
  paternal_genotype : PyAtom
  variant_type : Option String
  gene_symbols : Option (List String)
  canonical_transcripts : Option (List (Option String))
  transcript_consequences : Option (List String)
  gnomad_af : ℚ
  clinvar_classifications : Option (List String)
  raw : RawVariant
deriving DecidableEq, Repr

/-- One iteration of the transcript loop of `build_variant_record`: add the
gene symbol when truthy, add the transcript identifier when the canonical
flag is truthy, and add all consequence terms. -/
def transcriptStep (acc : List String × List (Option String) × List String)
    (t : Transcript) : List String × List (Option String) × List String :=
  let genes := match t.hgnc with
    | some gs => if gs ≠ "" then insertOnce acc.1 gs else acc.1
    | none => acc.1
  let canonical :=
    if t.isCanonical.truthy then insertOnce acc.2.1 t.transcript
    else acc.2.1
  let cons := insertAll acc.2.2 t.consequence
  (genes, canonical, cons)

/-- The transcript fold of `build_variant_record`: a single pass over the
transcript list accumulating the gene-symbol set, the canonical-transcript
set and the consequence set. -/
def transcriptFold (ts : List Transcript) :
    List String × List (Option String) × List String :=
  ts.foldl transcriptStep ([], [], [])

/-- The clinical-classification fold of `build_variant_record`: collect each
resolvable (truthy) germline classification label into a set. -/
def clinvarFold (entries : List ClinvarEntry) : List String :=
  entries.foldl
    (fun acc e => match e.classification with
      | some c => if c ≠ "" then insertOnce acc c else acc
      | none => acc)
    []

/-- The allele-depth normalization of `build_variant_record`: keep the list
shape (anything else becomes `[]`, covering both the `.get` default and the
`isinstance(allele_depths, list)` guard), then
`[int(x) for x in allele_depths if isinstance(x, (int, float))]`. -/
def normalizeAlleleDepths : PyVal → List Int
  | .plist xs => (xs.filter PyAtom.is_int_or_float).map PyAtom.toPyInt
  | .atom _ => []

/-- The gnomAD allele-frequency extraction of `build_variant_record`:
`variant.get("gnomad", {}).get("allAf")`. -/
def gnomadAllAf (v : RawVariant) : Option ℚ :=
  (v.gnomad.getD ⟨none⟩).allAf

/-- Positional sample access: `samples[i] if len(samples) > i else {}`. -/
def sampleAt (p : Position) (i : Nat) : Sample :=
  p.samples.getD i emptySample

/-- `build_variant_record(variant, variant_index, position)` from
`add-variants.py`: combine one raw variant with its enclosing position and
the positional samples into a flat record. -/
def build_variant_record (variant : RawVariant) (variant_index : Int)
    (position : Position) : VariantRecord :=
  let proband := sampleAt position 0
  let paternal := sampleAt position 1
  let maternal := sampleAt position 2
  let folded := transcriptFold variant.transcripts
  { vid := variant.vid
    chromosome := position.chromosome
    variant_index := variant_index
    position := position.position
    quality := position.quality
    begin_pos := variant.beginPos
    end_pos := variant.endPos
    ref_allele := variant.refAllele
    alt_allele := variant.altAllele
    genotype := normalizeGenotype proband.genotype
    genotype_quality := proband.genotypeQuality
    total_depth := proband.totalDepth
    allele_depths := normalizeAlleleDepths proband.alleleDepths
    maternal_genotype := normalizeGenotype maternal.genotype
    paternal_genotype := normalizeGenotype paternal.genotype
    variant_type := variant.variantType
    gene_symbols := some folded.1
    canonical_transcripts := some folded.2.1
    transcript_consequences := some folded.2.2
    gnomad_af := (gnomadAllAf variant).getD 0
    clinvar_classifications := some (clinvarFold variant.clinvarPreview)
    raw := variant }

/-!
Storage layer: the `variants` table with its `(vid, chromosome)` primary
key and `NOT NULL` columns, and transactional batch inserts.  Inserts occur
inside one `BEGIN`/`COMMIT`/`ROLLBACK` transaction, so the whole run either
appends all rows or leaves the store untouched.
-/

/-- A row satisfies the schema's `NOT NULL` constraints (`vid`,
`chromosome`, `position`, `quality`, `begin_pos`, `end_pos`, `ref_allele`,
`alt_allele` are declared `NOT NULL`; `variant_index` and `raw` are always
supplied by construction). -/
def rowNotNullOk (r : VariantRecord) : Bool :=
  r.vid.isSome && r.chromosome.isSome && r.position.isSome &&
  r.quality.isSome && r.begin_pos.isSome && r.end_pos.isSome &&
  r.ref_allele.isSome && r.alt_allele.isSome

/-- The primary-key value of a row, defined when both key columns are
non-null. -/
def rowKey (r : VariantRecord) : Option (String × String) :=
  match r.vid, r.chromosome with
  | some v, some c => some (v, c)
  | _, _ => none

/-- The set of primary keys present in a store. -/
def storeKeys (store : List VariantRecord) : List (String × String) :=
  store.filterMap rowKey

/-- Insert one row: fails on a `NOT NULL` violation or on a
`PRIMARY KEY (vid, chromosome)` collision with a row already visible to
the transaction, otherwise appends the row. -/
def insertRow (store : List VariantRecord) (r : VariantRecord) :
    Except String (List VariantRecord) :=
  if ¬ rowNotNullOk r then .error "NOT NULL constraint violated"
  else match rowKey r with
    | some k =>
        if k ∈ storeKeys store then
          .error "PRIMARY KEY constraint violated"
        else .ok (store ++ [r])
    | none => .error "NOT NULL constraint violated"

/-- `batch_insert`: `executemany` inserts the batch rows one by one; the
first failing row aborts the statement with its error. -/
def batch_insert (store : List VariantRecord) (rows : List VariantRecord) :
    Except String (List VariantRecord) :=
  match rows with
  | [] => .ok store
  | r :: rest => match insertRow store r with
    | .ok store' => batch_insert store' rest
    | .error e => .error e

/-- Mutable state of the ingestion loop in `main`: the transaction's view
of the table, the process-wide `seen` set of `vid` keys, and the pending
batch. -/
structure IngestState where
  store : List VariantRecord
  seen : List (Option String)
  batch : List VariantRecord
deriving Repr

/-- The inner loop of `main` over one position's variant list: skip any
variant whose `vid` was already seen this run, otherwise record the `vid`
as seen and append the built record to the batch. -/
def processVariants (seen : List (Option String))
    (batch : List VariantRecord) (p : Position) :
    Nat → List RawVariant → List (Option String) × List VariantRecord
  | _, [] => (seen, batch)
  | i, v :: rest =>
      if v.vid ∈ seen then processVariants seen batch p (i + 1) rest
      else processVariants (seen ++ [v.vid])
        (batch ++ [build_variant_record v (Int.ofNat i) p]) p (i + 1) rest

/-- `batch_size` from `main`. -/
def batchSize : Nat := 5000

/-- One iteration of the outer loop of `main`: process a position's
variants, then flush the batch if it reached `batch_size`. -/
def processPosition (st : IngestState) (p : Position) :
    Except String IngestState :=
  let sb := processVariants st.seen st.batch p 0 p.variants
  if sb.2.length ≥ batchSize then
    match batch_insert st.store sb.2 with
    | .ok store' => .ok ⟨store', sb.1, []⟩
    | .error e => .error e
  else .ok ⟨st.store, sb.1, sb.2⟩

/-- The outer loop of `main` followed by the final partial-batch flush,
producing the transaction's view of the table at `COMMIT` time. -/
def ingestLoop (st : IngestState) : List Position →
    Except String (List VariantRecord)
  | [] =>
      if st.batch.isEmpty then .ok st.store
      else match batch_insert st.store st.batch with
        | .ok store' => .ok store'
        | .error e => .error e
  | p :: ps => match processPosition st p with
    | .ok st' => ingestLoop st' ps
    | .error e => .error e

/-- The ingestion run of `main` against an existing store: `BEGIN`, stream
all positions with process-wide dedup and batched inserts, `COMMIT`.  An
error is re-raised after `ROLLBACK`. -/
def ingestMain (store : List VariantRecord) (positions : List Position) :
    Except String (List VariantRecord) :=
  ingestLoop ⟨store, [], []⟩ positions

/-- The state of the database file after the run: the committed view on
success, the pre-run store on `ROLLBACK`. -/
def storeAfter (store : List VariantRecord) (positions : List Position) :
    List VariantRecord :=
  match ingestMain store positions with
  | .ok store' => store'
  | .error _ => store

/-- The deduplicated record stream of a run, without batching: the records
`main` would build, in order, skipping every variant whose `vid` was
already seen. -/
def collectVariants (seen : List (Option String)) (p : Position) :
    Nat → List RawVariant → List (Option String) × List VariantRecord
  | _, [] => (seen, [])
  | i, v :: rest =>
      if v.vid ∈ seen then collectVariants seen p (i + 1) rest
      else
        let tail := collectVariants (seen ++ [v.vid]) p (i + 1) rest
        (tail.1, build_variant_record v (Int.ofNat i) p :: tail.2)

/-- The deduplicated record stream over a whole position list. -/
def collectRun (seen : List (Option String)) :
    List Position → List (Option String) × List VariantRecord
  | [] => (seen, [])
  | p :: ps =>
      let hd := collectVariants seen p 0 p.variants
      let tl := collectRun hd.1 ps
      (tl.1, hd.2 ++ tl.2)

/-- The records a run over `positions` builds, in order. -/
def runRecords (positions : List Position) : List VariantRecord :=
  (collectRun [] positions).2

/-!
Derived membership tables (`create_mapping_tables`): each is dropped and
recreated by unnesting one set-valued column of the `variants` table,
skipping rows where that column is `NULL`.
-/

/-- A row of a membership table: the copied key columns and one element of
the unnested set-valued attribute. -/
structure MappingRow where
  vid : Option String
  chromosome : Option String
  value : String
deriving DecidableEq, Repr

/-- `CREATE TABLE ... AS SELECT vid, chromosome, UNNEST(col) FROM variants
WHERE col IS NOT NULL`: one output row per element of the attribute of each
row; `NULL` attributes are filtered out, and empty lists unnest to no
rows. -/
def unnestRows (store : List VariantRecord)
    (attr : VariantRecord → Option (List String)) : List MappingRow :=
  store.flatMap (fun r => match attr r with
    | none => []
    | some xs => xs.map (fun x => ⟨r.vid, r.chromosome, x⟩))

/-- The three derived tables, in creation order: `variant_genes`,
`variant_consequences`, `clinvar_classifications`. -/
def create_mapping_tables (store : List VariantRecord) :
    List MappingRow × List MappingRow × List MappingRow :=
  (unnestRows store (fun r => r.gene_symbols),
   unnestRows store (fun r => r.transcript_consequences),
   unnestRows store (fun r => r.clinvar_classifications))

/-!
Query engine (`query_variants` in `workflow_agents/variant_agent.py`):
build a `SELECT DISTINCT` over `variants` with one inner join per active
filter category, a frequency `WHERE` clause, a total count over the
distinct subquery, then `ORDER BY chromosome ASC, begin_pos ASC,
variant_index ASC` and `OFFSET`.  The `limit` argument is accepted by the
function but never applied to the query.
-/

/-- The read-only database the query engine connects to. -/
structure VariantDB where
  variants : List VariantRecord
  variant_genes : List MappingRow
  variant_consequences : List MappingRow
  clinvar_classifications : List MappingRow
deriving Repr

/-- The arguments of `query_variants` (defaults in the source:
`limit=20`, `offset=0`). -/
structure QueryArgs where
  gene : Option String
  clinvar : Option (List String)
  consequence : Option (List String)
  max_gnomad_freq : Option ℚ
  limit : Int
  offset : Nat
deriving Repr

/-- The `if gene:` activation test: present and truthy (non-empty). -/
def geneActive (a : QueryArgs) : Bool :=
  match a.gene with
  | some g => g ≠ ""
  | none => false

/-- The `if clinvar:` activation test: present and non-empty. -/
def clinvarActive (a : QueryArgs) : Bool :=
  match a.clinvar with
  | some l => ¬ l.isEmpty
  | none => false

/-- The `if consequence:` activation test: present and non-empty. -/
def consequenceActive (a : QueryArgs) : Bool :=
  match a.consequence with
  | some l => ¬ l.isEmpty
  | none => false

/-- SQL `=` on two nullable string columns: `NULL` compares unknown, never
equal. -/
def sqlEqStr : Option String → Option String → Bool
  | some x, some y => x = y
  | _, _ => false

/-- An inner join of the current row set against a membership table on
`(vid, chromosome)`, with a `WHERE` predicate on the membership row: each
source row is emitted once per matching membership row. -/
def joinFilter (rows : List VariantRecord) (table : List MappingRow)
    (pred : MappingRow → Bool) : List VariantRecord :=
  rows.flatMap (fun r =>
    (table.filter (fun m =>
      sqlEqStr m.vid r.vid && sqlEqStr m.chromosome r.chromosome &&
      pred m)).map (fun _ => r))

/-- The row multiset after the conditional gene join of the query
(`if gene: query = query.join(var_genes, ...).where(gene_symbol == gene)`). -/
def geneStage (db : VariantDB) (a : QueryArgs) : List VariantRecord :=
  if geneActive a then
    joinFilter db.variants db.variant_genes
      (fun m => m.value = a.gene.getD "")
  else db.variants

/-- The row multiset after the conditional clinvar join
(`classification.in_(clinvar)`). -/
def clinvarStage (db : VariantDB) (a : QueryArgs) : List VariantRecord :=
  if clinvarActive a then
    joinFilter (geneStage db a) db.clinvar_classifications
      (fun m => m.value ∈ a.clinvar.getD [])
  else geneStage db a

/-- The row multiset after the conditional consequence join
(`consequence.in_(consequence)`). -/
def consequenceStage (db : VariantDB) (a : QueryArgs) : List VariantRecord :=
  if consequenceActive a then
    joinFilter (clinvarStage db a) db.variant_consequences
      (fun m => m.value ∈ a.consequence.getD [])
  else clinvarStage db a

/-- The joined-and-filtered row multiset of the query, before `DISTINCT`:
gene join (exact match), clinvar join (membership in the supplied list),
consequence join (membership in the supplied list), then the
`gnomad_af <= max_gnomad_freq` clause. -/
def matchedRows (db : VariantDB) (a : QueryArgs) : List VariantRecord :=
  match a.max_gnomad_freq with
  | some f => (consequenceStage db a).filter (fun r => r.gnomad_af ≤ f)
  | none => consequenceStage db a

/-- The `DISTINCT` result set of the query. -/
def distinctRows (db : VariantDB) (a : QueryArgs) : List VariantRecord :=
  (matchedRows db a).dedup

/-- `total_variants`: `SELECT count(*)` over the distinct subquery,
computed before ordering and offset are attached. -/
def total_variants (db : VariantDB) (a : QueryArgs) : Nat :=
  (distinctRows db a).length

/-- The `ORDER BY` comparison on a nullable `VARCHAR` column, ascending:
binary string order, `NULL` last. -/
def cmpOptStr : Option String → Option String → Ordering
  | none, none => .eq
  | none, some _ => .gt
  | some _, none => .lt
  | some x, some y => compare x y

/-- The `ORDER BY` comparison on a nullable `INTEGER` column, ascending:
numeric order, `NULL` last. -/
def cmpOptInt : Option Int → Option Int → Ordering
  | none, none => .eq
  | none, some _ => .gt
  | some _, none => .lt
  | some x, some y => compare x y

/-- The ordering key chain of the query: `chromosome ASC, begin_pos ASC,
variant_index ASC`. -/
def recordOrd (a b : VariantRecord) : Ordering :=
  (cmpOptStr a.chromosome b.chromosome).then
    ((cmpOptInt a.begin_pos b.begin_pos).then
      (compare a.variant_index b.variant_index))

/-- Boolean form of the ordering relation. -/
def recordLeB (a b : VariantRecord) : Bool :=
  match recordOrd a b with
  | .gt => false
  | _ => true

/-- The ordering relation used to realize `ORDER BY` deterministically. -/
def recordLe (a b : VariantRecord) : Prop := recordLeB a b = true

instance : DecidableRel recordLe := fun a b => by
  unfold recordLe
  infer_instance

/-- The page of records returned by `query_variants`: the distinct result
set, ordered by the tie-break chain, with `OFFSET` applied.  No `LIMIT`
clause exists in the source: `query.offset(offset)` is the last modifier
attached, and the `limit` argument is never used. -/
def query_variants_page (db : VariantDB) (a : QueryArgs) :
    List VariantRecord :=
  (List.insertionSort recordLe (distinctRows db a)).drop a.offset

/-!
Concrete data used to instantiate the claims: raw inputs for the ingestion
pipeline and stored rows/databases for the query engine.  Rational literals
are written with `mkRat` so that they reduce during kernel evaluation.
-/

/-- A transcript flagged canonical but lacking the transcript-identifier
field. -/
def tCanonNoId : Transcript :=
  ⟨some "BRCA1", .pbool true, none, ["missense_variant"]⟩

/-- A transcript not flagged canonical, with an identifier. -/
def tNotCanon : Transcript :=
  ⟨some "BRCA1", .pbool false, some "NM_007294.4", ["synonymous_variant"]⟩

/-- Raw variant `a` of the witness input: no gnomAD annotation, one
canonical transcript without identifier, one ClinVar classification. -/
def wva : RawVariant :=
  ⟨some "a", some 100, some 101, some "A", some "G", some "SNV",
   [tCanonNoId, tNotCanon], none, [⟨some "Pathogenic"⟩]⟩

/-- Raw variant `b` of the witness input: gnomAD allele frequency present. -/
def wvb : RawVariant :=
  ⟨some "b", some 200, some 201, some "C", some "T", some "SNV",
   [], some ⟨some (mkRat 3 1000)⟩, []⟩

/-- Raw variant with `vid` `a` again, on another chromosome: ingestion must
skip it because the `vid` was already seen during the run. -/
def wvaDup : RawVariant :=
  ⟨some "a", some 900, some 901, some "T", some "C", some "SNV",
   [], none, []⟩

/-- First witness position: chromosome `chr1`, proband genotype `1|.`,
two variants (`a` then `b`). -/
def wPos1 : Position :=
  ⟨some "chr1", some 100, some 50,
   [⟨.pstr "1|.", some 99, some 30, .atom .pnone⟩],
   [wva, wvb]⟩

/-- Second witness position: a different chromosome carrying a duplicate
`vid`, and a proband whose allele depths mix numeric and non-numeric
entries. -/
def wPos2 : Position :=
  ⟨some "chr2", some 900, some 40,
   [⟨.pstr "0/1", some 80, some 25,
     .plist [.pint 10, .pstr "x", .pbool true, .pdec (mkRat 3 2)]⟩],
   [wvaDup]⟩

/-- The witness ingestion input: M = 3 variant entries, N = 2 distinct
`vid` values. -/
def wPs : List Position := [wPos1, wPos2]

/-- A stored row matching the paging scenario, first in the tie-break
order. -/
def recA : VariantRecord :=
  ⟨some "v1", some "chr1", 0, some 100, some 50, some 100, some 101,
   some "A", some "G", .pstr "0/1", some 99, some 30, [10, 20],
   .pnone, .pnone, some "SNV", some ["BRCA1"], some [],
   some ["missense_variant"], 0, some ["Pathogenic"], wva⟩

/-- A second stored row, later in the tie-break order. -/
def recB : VariantRecord :=
  ⟨some "v2", some "chr1", 0, some 200, some 50, some 200, some 201,
   some "C", some "T", .pstr "0/1", some 99, some 30, [10, 20],
   .pnone, .pnone, some "SNV", some ["BRCA1"], some [],
   some ["missense_variant"], 0, some [], wvb⟩

/-- A database of two matching rows with consistent derived tables, for
the paging demonstrations. -/
def twoRowDB : VariantDB :=
  ⟨[recA, recB],
   (create_mapping_tables [recA, recB]).1,
   (create_mapping_tables [recA, recB]).2.1,
   (create_mapping_tables [recA, recB]).2.2⟩

/-- A `query_variants` call with no filters, `limit=1`, `offset=0`. -/
def argsL1o0 : QueryArgs := ⟨none, none, none, none, 1, 0⟩

/-- A `query_variants` call with no filters, `limit=1`, `offset=1`. -/
def argsL1o1 : QueryArgs := ⟨none, none, none, none, 1, 1⟩

/-- The record of the filter scenario: `gene_symbols=["BRCA1"]`,
`clinvar_classifications=["Pathogenic"]`, `gnomad_af=0.0001`. -/
def scenRec : VariantRecord :=
  ⟨some "v1", some "chr17", 0, some 100, some 50, some 100, some 101,
   some "A", some "G", .pstr "0/1", some 99, some 30, [10, 20],
   .pnone, .pnone, some "SNV", some ["BRCA1"], some [],
   some ["missense_variant"], mkRat 1 10000, some ["Pathogenic"], wva⟩

/-- The one-record store of the filter scenario, with consistent derived
tables. -/
def scenDB : VariantDB :=
  ⟨[scenRec],
   (create_mapping_tables [scenRec]).1,
   (create_mapping_tables [scenRec]).2.1,
   (create_mapping_tables [scenRec]).2.2⟩

/-- Scenario query `gene="BRCA1"`. -/
def argsBRCA : QueryArgs := ⟨some "BRCA1", none, none, none, 20, 0⟩

/-- Scenario query `gene="TP53"`. -/
def argsTP53 : QueryArgs := ⟨some "TP53", none, none, none, 20, 0⟩

/-- Scenario query `max_gnomad_freq=0.00001`. -/
def argsFreq : QueryArgs := ⟨none, none, none, some (mkRat 1 100000), 20, 0⟩

/-- The flattened occurrence list of a run: every variant entry with its
ordinal index and enclosing position, in stream order. -/
def entriesFrom (p : Position) : Nat → List RawVariant →
    List (RawVariant × Nat × Position)
  | _, [] => []
  | i, v :: rest => (v, i, p) :: entriesFrom p (i + 1) rest

/-- All variant entries of a run, in stream order. -/
def runEntries (ps : List Position) : List (RawVariant × Nat × Position) :=
  ps.flatMap (fun p => entriesFrom p 0 p.variants)

/-- The first-occurrence selection over the flattened entry list: keep an
entry exactly when its `vid` has not been seen before. -/
def dedupEntries (seen : List (Option String)) :
    List (RawVariant × Nat × Position) → List (RawVariant × Nat × Position)
  | [] => []
  | e :: rest =>
      if e.1.vid ∈ seen then dedupEntries seen rest
      else e :: dedupEntries (seen ++ [e.1.vid]) rest

/-- Build the record of one occurrence-list entry. -/
def buildEntry (e : RawVariant × Nat × Position) : VariantRecord :=
  build_variant_record e.1 (Int.ofNat e.2.1) e.2.2

/-!
Helper lemmas about the set-as-list accumulators.
-/

/-- Membership in `insertOnce`. -/
theorem mem_insertOnce {α : Type} [DecidableEq α] (l : List α) (a b : α) :
    b ∈ insertOnce l a ↔ b ∈ l ∨ b = a := by
  unfold insertOnce
  split_ifs with h
  · constructor
    · exact Or.inl
    · rintro (hb | rfl)
      · exact hb
      · exact h
  · simp [List.mem_append]

/-- Membership in the canonical-transcript component of the transcript
fold, relative to an arbitrary accumulator. -/
theorem mem_transcriptFoldl_canonical (ts : List Transcript)
    (acc : List String × List (Option String) × List String)
    (x : Option String) :
    x ∈ (ts.foldl transcriptStep acc).2.1 ↔
      x ∈ acc.2.1 ∨
      ∃ t ∈ ts, t.isCanonical.truthy = true ∧ t.transcript = x := by
  induction ts generalizing acc with
  | nil => simp
  | cons t ts ih =>
      rw [List.foldl_cons, ih]
      have hstep : (transcriptStep acc t).2.1 =
          if t.isCanonical.truthy then insertOnce acc.2.1 t.transcript
          else acc.2.1 := rfl
      rw [hstep]
      split_ifs with h
  
      · rw [mem_insertOnce]
        simp only [List.mem_cons]
        constructor
        · rintro ((hx | rfl) | ⟨u, hu, hc, ht⟩)
          · exact Or.inl hx
          · exact Or.inr ⟨t, Or.inl rfl, h, rfl⟩
          · exact Or.inr ⟨u, Or.inr hu, hc, ht⟩
        · rintro (hx | ⟨u, (rfl | hu), hc, ht⟩)
          · exact Or.inl (Or.inl hx)
          · exact Or.inl (Or.inr ht.symm)
          · exact Or.inr ⟨u, hu, hc, ht⟩
      · simp only [List.mem_cons]
        constructor
        · rintro (hx | ⟨u, hu, hc, ht⟩)
          · exact Or.inl hx
          · exact Or.inr ⟨u, Or.inr hu, hc, ht⟩
        · rintro (hx | ⟨u, (rfl | hu), hc, ht⟩)
          · exact Or.inl hx
          · exact absurd hc (by simp [h])
          · exact Or.inr ⟨u, hu, hc, ht⟩

/-!
Claim theorems for the variant normalizer.
-/

/-- C5: for every proband, maternal and paternal genotype value that is a
string, every `|` is replaced by `/` and every `.` by `0`, so the output
contains neither `|` nor `.`; non-string or absent genotype values pass
through unchanged. -/
theorem genotype_normalization (v : RawVariant) (i : Int) (p : Position) :
    (build_variant_record v i p).genotype
        = normalizeGenotype (sampleAt p 0).genotype ∧
    (build_variant_record v i p).paternal_genotype
        = normalizeGenotype (sampleAt p 1).genotype ∧
    (build_variant_record v i p).maternal_genotype
        = normalizeGenotype (sampleAt p 2).genotype ∧
    (∀ s : String,
      normalizeGenotype (.pstr s)
          = .pstr (replaceChar (replaceChar s '|' '/') '.' '0') ∧
      '|' ∉ (replaceChar (replaceChar s '|' '/') '.' '0').data ∧
      '.' ∉ (replaceChar (replaceChar s '|' '/') '.' '0').data ∧
      (replaceChar (replaceChar s '|' '/') '.' '0').data
          = s.data.map (fun c =>
              if c = '|' then '/' else if c = '.' then '0' else c)) ∧
    (∀ a : PyAtom, (∀ s : String, a ≠ .pstr s) → normalizeGenotype a = a) := by
  have hdata : ∀ s : String,
      (replaceChar (replaceChar s '|' '/') '.' '0').data
        = s.data.map (fun c =>
            if c = '|' then '/' else if c = '.' then '0' else c) := by
    intro s
    show (s.data.map _).map _ = _
    rw [List.map_map]
    congr 1
    funext c
    by_cases h1 : c = '|'
    · subst h1; decide
    · by_cases h2 : c = '.'
      · subst h2; decide
      · simp [Function.comp, h1, h2]
  refine ⟨rfl, rfl, rfl, ?_, ?_⟩
  · intro s
    refine ⟨rfl, ?_, ?_, hdata s⟩
    · rw [hdata s]
      rintro hmem
      rw [List.mem_map] at hmem
      obtain ⟨c, _, hc⟩ := hmem
      revert hc
      by_cases h1 : c = '|'
      · subst h1; decide
      · by_cases h2 : c = '.'
        · subst h2; decide
        · simp [h1, h2]
    · rw [hdata s]
      rintro hmem
      rw [List.mem_map] at hmem
      obtain ⟨c, _, hc⟩ := hmem
      revert hc
      by_cases h1 : c = '|'
      · subst h1; decide
      · by_cases h2 : c = '.'
        · subst h2; decide
        · simp [h1, h2]
  · intro a ha
    cases a with
    | pstr s => exact absurd rfl (ha s)
    | _ => rfl

/-- Closed instance of `genotype_normalization`: the witness proband
genotype `1|.` normalizes to `1/0`, which contains neither `|` nor `.`,
and a non-string genotype passes through unchanged. -/
theorem genotype_normalization_witness :
    (build_variant_record wva 0 wPos1).genotype
        = normalizeGenotype (sampleAt wPos1 0).genotype ∧
    normalizeGenotype (.pstr "1|.") = .pstr "1/0" ∧
    '|' ∉ (replaceChar (replaceChar "1|." '|' '/') '.' '0').data ∧
    normalizeGenotype .pnone = .pnone := by
  obtain ⟨hg, _, _, hstr, hpass⟩ := genotype_normalization wva 0 wPos1
  exact ⟨hg, rfl, (hstr "1|.").2.1, hpass .pnone (fun s h => by cases h)⟩

/-- C8: the population allele frequency defaults to `0.0` (never null)
when the nested frequency field is absent, and is used as-is when
present. -/
theorem gnomad_af_default (v : RawVariant) (i : Int) (p : Position) :
    (gnomadAllAf v = none → (build_variant_record v i p).gnomad_af = 0) ∧
    (∀ q : ℚ, gnomadAllAf v = some q →
      (build_variant_record v i p).gnomad_af = q) := by
  constructor
  · intro h
    show (gnomadAllAf v).getD 0 = 0
    rw [h]
    rfl
  · intro q h
    show (gnomadAllAf v).getD 0 = q
    rw [h]
    rfl

/-- Closed instance of `gnomad_af_default`: the witness variant without a
gnomAD annotation stores `0`, the one with a frequency stores it. -/
theorem gnomad_af_default_witness :
    (build_variant_record wva 0 wPos1).gnomad_af = 0 ∧
    (build_variant_record wvb 1 wPos1).gnomad_af = mkRat 3 1000 :=
  ⟨(gnomad_af_default wva 0 wPos1).1 rfl,
   (gnomad_af_default wvb 1 wPos1).2 (mkRat 3 1000) rfl⟩

/-- C9: allele depths are the numeric entries of the proband list, coerced
to integers in input order; non-numeric entries are silently dropped, and
a non-list (or absent) value yields the empty list. -/
theorem allele_depths_filter (v : RawVariant) (i : Int) (p : Position) :
    (build_variant_record v i p).allele_depths
        = normalizeAlleleDepths (sampleAt p 0).alleleDepths ∧
    (∀ xs : List PyAtom, normalizeAlleleDepths (.plist xs)
        = (xs.filter PyAtom.is_int_or_float).map PyAtom.toPyInt) ∧
    (∀ a : PyAtom, normalizeAlleleDepths (.atom a) = []) ∧
    (∀ (l₁ l₂ : List PyAtom) (a : PyAtom), a.is_int_or_float = false →
      normalizeAlleleDepths (.plist (l₁ ++ a :: l₂))
        = normalizeAlleleDepths (.plist (l₁ ++ l₂))) ∧
    (∀ (l₁ l₂ : List PyAtom) (a : PyAtom), a.is_int_or_float = true →
      normalizeAlleleDepths (.plist (l₁ ++ a :: l₂))
        = normalizeAlleleDepths (.plist l₁)
          ++ a.toPyInt :: normalizeAlleleDepths (.plist l₂)) := by
  refine ⟨rfl, fun xs => rfl, fun a => rfl, ?_, ?_⟩
  · intro l₁ l₂ a h
    show ((l₁ ++ a :: l₂).filter _).map _ = ((l₁ ++ l₂).filter _).map _
    rw [List.filter_append, List.filter_append, List.filter_cons, h]
    simp
  · intro l₁ l₂ a h
    show ((l₁ ++ a :: l₂).filter _).map _ = _
    rw [List.filter_append, List.filter_cons, h]
    simp [normalizeAlleleDepths]

/-- Closed instance of `allele_depths_filter`: the mixed witness list
`[10, "x", True, Decimal(1.5)]` yields `[10, 1]`, a non-list value yields
`[]`, and dropping the non-numeric `"x"` is exact. -/
theorem allele_depths_filter_witness :
    (build_variant_record wvaDup 0 wPos2).allele_depths = [10, 1] ∧
    (build_variant_record wva 0 wPos1).allele_depths = [] ∧
    normalizeAlleleDepths
        (.plist ([PyAtom.pint 10] ++ PyAtom.pstr "x" :: [PyAtom.pbool true]))
      = normalizeAlleleDepths (.plist ([PyAtom.pint 10] ++ [PyAtom.pbool true])) :=
  ⟨rfl, rfl,
   (allele_depths_filter wvaDup 0 wPos2).2.2.2.1
     [PyAtom.pint 10] [PyAtom.pbool true] (PyAtom.pstr "x") rfl⟩

/-- C10: a transcript entry whose canonical flag is truthy but which lacks
the transcript-identifier field contributes a null element to
`canonical_transcripts`, normalization still succeeding; transcripts whose
flag is false or absent never contribute. -/
theorem canonical_null_element (v : RawVariant) (i : Int) (p : Position) :
    ∃ l, (build_variant_record v i p).canonical_transcripts = some l ∧
      (∀ x, x ∈ l ↔
        ∃ t ∈ v.transcripts, t.isCanonical.truthy = true ∧ t.transcript = x) ∧
      ((∃ t ∈ v.transcripts,
          t.isCanonical.truthy = true ∧ t.transcript = none) → none ∈ l) := by
  refine ⟨(transcriptFold v.transcripts).2.1, rfl, ?_, ?_⟩
  · intro x
    have h := mem_transcriptFoldl_canonical v.transcripts ([], [], []) x
    simpa using h
  · intro hex
    have h := mem_transcriptFoldl_canonical v.transcripts ([], [], []) none
    rw [show (transcriptFold v.transcripts).2.1
          = (v.transcripts.foldl transcriptStep ([], [], [])).2.1 from rfl]
    rw [h]
    exact Or.inr hex

/-- Closed instance of `canonical_null_element`: the witness variant has a
truthy-canonical transcript without an identifier and a non-canonical one
with an identifier, and its canonical set is exactly `[null]`. -/
theorem canonical_null_element_witness :
    ∃ l, (build_variant_record wva 0 wPos1).canonical_transcripts = some l ∧
      none ∈ l ∧ l = [none] := by
  obtain ⟨l, hl, _, hnull⟩ := canonical_null_element wva 0 wPos1
  refine ⟨l, hl, hnull ⟨tCanonNoId, by decide, rfl, rfl⟩, ?_⟩
  have : (build_variant_record wva 0 wPos1).canonical_transcripts
      = some [none] := rfl
  rw [hl] at this
  exact (Option.some_inj.mp this)

/-!
Ingestion pipeline lemmas: batched transactional insertion over the
deduplicated record stream is a single fold of row inserts.
-/

/-- Unfolding of `batch_insert` on a non-empty batch. -/
theorem batch_insert_cons (s : List VariantRecord) (r : VariantRecord)
    (rest : List VariantRecord) :
    batch_insert s (r :: rest) = match insertRow s r with
      | .ok t => batch_insert t rest
      | .error e => .error e := rfl

/-- Inserting a concatenation is inserting the parts in sequence. -/
theorem batch_insert_append (xs ys : List VariantRecord) :
    ∀ s, batch_insert s (xs ++ ys) = match batch_insert s xs with
      | .ok t => batch_insert t ys
      | .error e => .error e := by
  induction xs with
  | nil => intro s; rfl
  | cons r rest ih =>
      intro s
      rw [List.cons_append, batch_insert_cons, batch_insert_cons]
      cases h : insertRow s r with
      | ok t => exact ih t
      | error e => rfl


/-- A successful single-row insert appends the row, and implies the row
passed the `NOT NULL` checks with a fresh primary key. -/
theorem insertRow_ok (s : List VariantRecord) (r : VariantRecord)
    (t : List VariantRecord) (h : insertRow s r = .ok t) :
    t = s ++ [r] ∧ rowNotNullOk r = true ∧
      ∃ k, rowKey r = some k ∧ k ∉ storeKeys s := by
  unfold insertRow at h
  split at h
  · cases h
  · rename_i hnn
    split at h
    · rename_i k hk
      split at h
      · cases h
      · rename_i hmem
        refine ⟨(Except.ok.inj h).symm, ?_, k, hk, hmem⟩
        simp only [not_not, Bool.not_eq_true] at hnn
        cases hb : rowNotNullOk r with
        | false => exact absurd hb hnn
        | true => rfl
    · cases h

/-- A single-row insert whose key is already present fails. -/
theorem insertRow_conflict (s : List VariantRecord) (r : VariantRecord)
    (k : String × String) (hk : rowKey r = some k)
    (hmem : k ∈ storeKeys s) : ∃ e, insertRow s r = .error e := by
  by_cases h1 : rowNotNullOk r = true
  · exact ⟨"PRIMARY KEY constraint violated",
      by simp [insertRow, h1, hk, hmem]⟩
  · simp only [Bool.not_eq_true] at h1
    exact ⟨"NOT NULL constraint violated", by simp [insertRow, h1]⟩

/-- A successful batch insert appends exactly the batch. -/
theorem batch_insert_ok_eq (xs : List VariantRecord) :
    ∀ s t, batch_insert s xs = .ok t → t = s ++ xs := by
  induction xs with
  | nil =>
      intro s t h
      simp only [batch_insert] at h
      simp [Except.ok.inj h]
  | cons r rest ih =>
      intro s t h
      rw [batch_insert_cons] at h
      cases hr : insertRow s r with
      | ok u =>
          rw [hr] at h
          have hu := (insertRow_ok s r u hr).1
          rw [ih u t h, hu]
          simp
      | error e => rw [hr] at h; cases h

/-- Every row of a successfully inserted batch passed the `NOT NULL`
checks. -/
theorem batch_insert_ok_wf (xs : List VariantRecord) :
    ∀ s t, batch_insert s xs = .ok t →
      ∀ r ∈ xs, rowNotNullOk r = true := by
  induction xs with
  | nil => intro s t _ r hr; cases hr
  | cons x rest ih =>
      intro s t h r hr
      rw [batch_insert_cons] at h
      cases hx : insertRow s x with
      | ok u =>
          rw [hx] at h
          rcases List.mem_cons.mp hr with rfl | hr'
          · exact (insertRow_ok s r u hx).2.1
          · exact ih u t h r hr'
      | error e => rw [hx] at h; cases h

/-- A batch whose first row collides with a key already in the store
fails. -/
theorem batch_insert_conflict (s : List VariantRecord) (r : VariantRecord)
    (rest : List VariantRecord) (k : String × String)
    (hk : rowKey r = some k) (hmem : k ∈ storeKeys s) :
    ∃ e, batch_insert s (r :: rest) = .error e := by
  obtain ⟨e, he⟩ := insertRow_conflict s r k hk hmem
  exact ⟨e, by rw [batch_insert_cons, he]⟩

/-- Matching an `Except` back into itself is the identity. -/
theorem except_eta (x : Except String (List VariantRecord)) :
    (match x with
      | .ok s => (Except.ok s : Except String (List VariantRecord))
      | .error e => .error e) = x := by
  cases x <;> rfl

/-- The batching loop body equals the pure deduplicated collection, with
the batch accumulated in front. -/
theorem processVariants_collect (p : Position) :
    ∀ (vs : List RawVariant) (seen : List (Option String))
      (batch : List VariantRecord) (i : Nat),
      processVariants seen batch p i vs =
        ((collectVariants seen p i vs).1,
         batch ++ (collectVariants seen p i vs).2) := by
  intro vs
  induction vs with
  | nil => intro seen batch i; simp [processVariants, collectVariants]
  | cons v rest ih =>
      intro seen batch i
      by_cases h : v.vid ∈ seen
      · simp only [processVariants, collectVariants, if_pos h]
        exact ih seen batch (i + 1)
      · simp only [processVariants, collectVariants, if_neg h]
        rw [ih]
        simp

/-- Unfolding of `collectRun` on a non-empty position list. -/
theorem collectRun_cons (seen : List (Option String)) (p : Position)
    (ps : List Position) :
    collectRun seen (p :: ps) =
      ((collectRun (collectVariants seen p 0 p.variants).1 ps).1,
       (collectVariants seen p 0 p.variants).2 ++
         (collectRun (collectVariants seen p 0 p.variants).1 ps).2) := rfl

/-- The whole ingestion loop, including intermediate batch flushes and the
final partial flush, equals one sequential insert of the deduplicated
record stream. -/
theorem ingestLoop_eq (ps : List Position) :
    ∀ st : IngestState,
      ingestLoop st ps =
        batch_insert st.store (st.batch ++ (collectRun st.seen ps).2) := by
  induction ps with
  | nil =>
      rintro ⟨store, seen, batch⟩
      show (if batch.isEmpty then Except.ok store
            else match batch_insert store batch with
              | .ok store' => .ok store'
              | .error e => .error e) = _
      rw [except_eta]
      cases batch with
      | nil => simp [collectRun, batch_insert]
      | cons b bs => simp [collectRun]
  | cons p ps ih =>
      rintro ⟨store, seen, batch⟩
      show (match processPosition ⟨store, seen, batch⟩ p with
            | .ok st' => ingestLoop st' ps
            | .error e => .error e) = _
      unfold processPosition
      rw [processVariants_collect]
      simp only [collectRun_cons]
      by_cases hflush :
          (batch ++ (collectVariants seen p 0 p.variants).2).length ≥ batchSize
      · rw [if_pos hflush]
        rw [show batch ++ ((collectVariants seen p 0 p.variants).2 ++
              (collectRun (collectVariants seen p 0 p.variants).1 ps).2)
            = (batch ++ (collectVariants seen p 0 p.variants).2) ++
              (collectRun (collectVariants seen p 0 p.variants).1 ps).2
          from (List.append_assoc _ _ _).symm]
        conv_rhs => rw [batch_insert_append]
        cases hbi : batch_insert store
            (batch ++ (collectVariants seen p 0 p.variants).2) with
        | ok store' =>
            simp only
            rw [ih ⟨store', (collectVariants seen p 0 p.variants).1, []⟩]
            simp
        | error e => rfl
      · rw [if_neg hflush]
        simp only
        rw [ih ⟨store, (collectVariants seen p 0 p.variants).1,
              batch ++ (collectVariants seen p 0 p.variants).2⟩]
        show batch_insert store _ = batch_insert store _
        rw [List.append_assoc]

/-- `main`'s transaction body equals one sequential insert of the run's
deduplicated record stream into the pre-run store. -/
theorem ingestMain_eq (store : List VariantRecord) (ps : List Position) :
    ingestMain store ps = batch_insert store (runRecords ps) := by
  unfold ingestMain runRecords
  rw [ingestLoop_eq]
  rfl

/-- A row passing the `NOT NULL` checks has a defined primary key. -/
theorem rowKey_of_notNull (r : VariantRecord) (h : rowNotNullOk r = true) :
    ∃ v c, r.vid = some v ∧ r.chromosome = some c ∧
      rowKey r = some (v, c) := by
  simp only [rowNotNullOk, Bool.and_eq_true, Option.isSome_iff_exists] at h
  obtain ⟨⟨⟨⟨⟨⟨⟨⟨v, hv⟩, c, hc⟩, -⟩, -⟩, -⟩, -⟩, -⟩, -⟩ := h
  exact ⟨v, c, hv, hc, by unfold rowKey; rw [hv, hc]⟩

/-- A defined primary key determines the key columns. -/
theorem rowKey_some (x : VariantRecord) (k : String × String)
    (h : rowKey x = some k) :
    x.vid = some k.1 ∧ x.chromosome = some k.2 := by
  cases hv : x.vid with
  | none => simp [rowKey, hv] at h
  | some v =>
      cases hc : x.chromosome with
      | none => simp [rowKey, hv, hc] at h
      | some c =>
          simp only [rowKey, hv, hc, Option.some.injEq] at h
          subst h
          exact ⟨rfl, rfl⟩

/-- C3: if any batch insert of a run fails, the storage-layer transaction
rolls back every batch of the run, the failure is re-raised, and the store
is unchanged; in particular re-running ingestion of data overlapping the
store on `(vid, chromosome)` raises a constraint error and leaves the
store exactly as it was. -/
theorem ingestion_transaction :
    (∀ (store : List VariantRecord) (ps : List Position) (e : String),
        ingestMain store ps = .error e →
        storeAfter store ps = store ∧
        (storeAfter store ps).length = store.length) ∧
    (∀ (ps : List Position) (s₁ : List VariantRecord),
        ingestMain [] ps = .ok s₁ → s₁ ≠ [] →
        (∃ e, ingestMain s₁ ps = .error e) ∧
        storeAfter s₁ ps = s₁) := by
  have hroll : ∀ (store : List VariantRecord) (ps : List Position)
      (e : String), ingestMain store ps = .error e →
      storeAfter store ps = store := by
    intro store ps e h
    unfold storeAfter
    rw [h]
  constructor
  · intro store ps e h
    exact ⟨hroll store ps e h, by rw [hroll store ps e h]⟩
  · intro ps s₁ hok hne
    rw [ingestMain_eq] at hok
    have hs : s₁ = runRecords ps := by
      simpa using batch_insert_ok_eq (runRecords ps) [] s₁ hok
    cases hr : runRecords ps with
    | nil => exact absurd (hs.trans hr) hne
    | cons r rest =>
        have hwfr : rowNotNullOk r = true := by
          apply batch_insert_ok_wf (runRecords ps) [] s₁ hok
          rw [hr]
          exact List.mem_cons_self r rest
        obtain ⟨v, c, hv, hc, hk⟩ := rowKey_of_notNull r hwfr
        have hmem : (v, c) ∈ storeKeys s₁ := by
          rw [hs, hr]
          unfold storeKeys
          rw [List.filterMap_cons, hk]
          exact List.mem_cons_self _ _
        obtain ⟨e, he⟩ := batch_insert_conflict s₁ r rest (v, c) hk hmem
        have hmain2 : ingestMain s₁ ps = .error e := by
          rw [ingestMain_eq, hr]
          exact he
        exact ⟨⟨e, hmain2⟩, hroll s₁ ps e hmain2⟩

/-- Closed instance of `ingestion_transaction`: re-running the witness
ingestion against the store it produced raises a constraint error and
leaves the store unchanged. -/
theorem ingestion_transaction_witness :
    (∃ e, ingestMain (runRecords wPs) wPs = .error e) ∧
    storeAfter (runRecords wPs) wPs = runRecords wPs := by
  have h := ingestion_transaction.2 wPs (runRecords wPs) rfl (by decide)
  exact ⟨h.1, h.2⟩

/-- The per-position collection is the first-occurrence selection over its
entry list. -/
theorem collectVariants_entries (p : Position) :
    ∀ (vs : List RawVariant) (seen : List (Option String)) (i : Nat),
      collectVariants seen p i vs
        = (seen ++ (dedupEntries seen
              (entriesFrom p i vs)).map (fun e => e.1.vid),
           (dedupEntries seen (entriesFrom p i vs)).map buildEntry) := by
  intro vs
  induction vs with
  | nil => intro seen i; simp [collectVariants, entriesFrom, dedupEntries]
  | cons v rest ih =>
      intro seen i
      by_cases h : v.vid ∈ seen
      · simp only [collectVariants, entriesFrom, dedupEntries, if_pos h]
        exact ih seen (i + 1)
      · simp only [collectVariants, entriesFrom, dedupEntries, if_neg h]
        rw [ih (seen ++ [v.vid]) (i + 1)]
        simp [buildEntry]

/-- Unfolding of `dedupEntries` on a non-empty entry list. -/
theorem dedupEntries_cons (seen : List (Option String))
    (e : RawVariant × Nat × Position)
    (rest : List (RawVariant × Nat × Position)) :
    dedupEntries seen (e :: rest)
      = if e.1.vid ∈ seen then dedupEntries seen rest
        else e :: dedupEntries (seen ++ [e.1.vid]) rest := rfl

/-- First-occurrence selection distributes over concatenation, threading
the seen set. -/
theorem dedupEntries_append :
    ∀ (xs ys : List (RawVariant × Nat × Position))
      (seen : List (Option String)),
      dedupEntries seen (xs ++ ys)
        = dedupEntries seen xs
          ++ dedupEntries
              (seen ++ (dedupEntries seen xs).map (fun e => e.1.vid)) ys := by
  intro xs
  induction xs with
  | nil => intro ys seen; simp [dedupEntries]
  | cons e rest ih =>
      intro ys seen
      by_cases h : e.1.vid ∈ seen
      · rw [List.cons_append, dedupEntries_cons, dedupEntries_cons,
          if_pos h, if_pos h]
        exact ih ys seen
      · rw [List.cons_append, dedupEntries_cons, dedupEntries_cons,
          if_neg h, if_neg h, ih ys (seen ++ [e.1.vid])]
        simp

/-- The run's collection is the first-occurrence selection over the run's
whole entry list. -/
theorem collectRun_entries :
    ∀ (ps : List Position) (seen : List (Option String)),
      collectRun seen ps
        = (seen ++ (dedupEntries seen
              (runEntries ps)).map (fun e => e.1.vid),
           (dedupEntries seen (runEntries ps)).map buildEntry) := by
  intro ps
  induction ps with
  | nil => intro seen; simp [collectRun, runEntries, dedupEntries]
  | cons p ps ih =>
      intro seen
      rw [collectRun_cons, collectVariants_entries p p.variants seen 0]
      have hre : runEntries (p :: ps)
          = entriesFrom p 0 p.variants ++ runEntries ps := by
        simp [runEntries]
      rw [hre, dedupEntries_append]
      rw [ih]
      simp [List.append_assoc]

/-- The run's record stream is the image of its first-occurrence entry
selection. -/
theorem runRecords_entries (ps : List Position) :
    runRecords ps = (dedupEntries [] (runEntries ps)).map buildEntry := by
  unfold runRecords
  rw [collectRun_entries]

/-- The `vid` keys selected by first-occurrence dedup avoid the seen set
and are pairwise distinct. -/
theorem dedupEntries_vids_nodup :
    ∀ (es : List (RawVariant × Nat × Position))
      (seen : List (Option String)),
      (∀ v ∈ (dedupEntries seen es).map (fun e => e.1.vid), v ∉ seen) ∧
      ((dedupEntries seen es).map (fun e => e.1.vid)).Nodup := by
  intro es
  induction es with
  | nil => intro seen; simp [dedupEntries]
  | cons e rest ih =>
      intro seen
      by_cases h : e.1.vid ∈ seen
      · rw [dedupEntries_cons, if_pos h]
        exact ih seen
      · rw [dedupEntries_cons, if_neg h]
        simp only [List.map_cons]
        have ih2 := ih (seen ++ [e.1.vid])
        constructor
        · intro v hv hvseen
          rcases List.mem_cons.mp hv with rfl | hv'
          · exact h hvseen
          · exact ih2.1 v hv' (List.mem_append_left _ hvseen)
        · rw [List.nodup_cons]
          refine ⟨fun hmem => ?_, ih2.2⟩
          exact ih2.1 _ hmem (List.mem_append_right _ (by simp))

/-- The number of selected entries counts the distinct `vid` values not
yet seen. -/
theorem dedupEntries_length :
    ∀ (es : List (RawVariant × Nat × Position))
      (seen : List (Option String)),
      (dedupEntries seen es).length
        = ((es.map (fun e => e.1.vid)).toFinset \ seen.toFinset).card := by
  intro es
  induction es with
  | nil => intro seen; simp [dedupEntries]
  | cons e rest ih =>
      intro seen
      by_cases h : e.1.vid ∈ seen
      · rw [dedupEntries_cons, if_pos h, ih seen]
        simp only [List.map_cons, List.toFinset_cons]
        rw [Finset.insert_sdiff_of_mem _ (List.mem_toFinset.mpr h)]
      · rw [dedupEntries_cons, if_neg h]
        simp only [List.length_cons, List.map_cons, List.toFinset_cons]
        rw [ih (seen ++ [e.1.vid])]
        have hf : e.1.vid ∉ seen.toFinset :=
          fun hs => h (List.mem_toFinset.mp hs)
        have hseen' : (seen ++ [e.1.vid]).toFinset
            = insert e.1.vid seen.toFinset := by
          ext x
          simp [or_comm]
        have hident :
            insert e.1.vid (rest.map (fun e => e.1.vid)).toFinset
                \ seen.toFinset
              = insert e.1.vid
                  ((rest.map (fun e => e.1.vid)).toFinset
                    \ insert e.1.vid seen.toFinset) := by
          ext x
          simp only [Finset.mem_sdiff, Finset.mem_insert]
          constructor
          · rintro ⟨hor, hns⟩
            rcases hor with rfl | hx
            · exact Or.inl rfl
            · by_cases hxv : x = e.1.vid
              · exact Or.inl hxv
              · exact Or.inr ⟨hx, fun hor2 => hor2.elim hxv hns⟩
          · rintro (rfl | ⟨hx, hns⟩)
            · exact ⟨Or.inl rfl, hf⟩
            · exact ⟨Or.inr hx, fun hs => hns (Or.inr hs)⟩
        rw [hseen', hident,
          Finset.card_insert_of_not_mem (by simp [Finset.mem_sdiff])]
  
/-- A selected entry is the first occurrence of its `vid` in the entry
stream. -/
theorem dedupEntries_first :
    ∀ (es : List (RawVariant × Nat × Position))
      (seen : List (Option String)) (e : RawVariant × Nat × Position),
      e ∈ dedupEntries seen es →
      e.1.vid ∉ seen ∧
      es.find? (fun x => decide (x.1.vid = e.1.vid)) = some e := by
  intro es
  induction es with
  | nil => intro seen e h; cases h
  | cons e0 rest ih =>
      intro seen e h
      by_cases h0 : e0.1.vid ∈ seen
      · rw [dedupEntries_cons, if_pos h0] at h
        obtain ⟨hns, hfind⟩ := ih seen e h
        refine ⟨hns, ?_⟩
        have hpred : ¬ ((fun x : RawVariant × Nat × Position =>
            decide (x.1.vid = e.1.vid)) e0 = true) := by
          simp only [decide_eq_true_eq]
          intro heq
          rw [heq] at h0
          exact hns h0
        exact (@List.find?_cons_of_neg _
          (fun x : RawVariant × Nat × Position =>
            decide (x.1.vid = e.1.vid)) e0 rest hpred).trans hfind
      · rw [dedupEntries_cons, if_neg h0] at h
        rcases List.mem_cons.mp h with rfl | h'
        · exact ⟨h0, by rw [List.find?_cons_of_pos _ (by simp)]⟩
        · obtain ⟨hns, hfind⟩ := ih (seen ++ [e0.1.vid]) e h'
          have hne : ¬ (e0.1.vid = e.1.vid) := by
            intro heq
            exact hns (by rw [← heq]; exact List.mem_append_right _ (by simp))
          refine ⟨fun hs => hns (List.mem_append_left _ hs), ?_⟩
          have hpred : ¬ ((fun x : RawVariant × Nat × Position =>
              decide (x.1.vid = e.1.vid)) e0 = true) := by
            simp only [decide_eq_true_eq]
            exact hne
          exact (@List.find?_cons_of_neg _
            (fun x : RawVariant × Nat × Position =>
              decide (x.1.vid = e.1.vid)) e0 rest hpred).trans hfind

/-- Inserting well-formed rows with pairwise-distinct `vid` keys, none of
which collides with the store, succeeds and appends them all. -/
theorem batch_insert_fresh :
    ∀ (rows store : List VariantRecord),
      (∀ r ∈ rows, rowNotNullOk r = true) →
      ((rows.map (fun r => r.vid)).Nodup) →
      (∀ r ∈ rows, ∀ k, rowKey r = some k → k ∉ storeKeys store) →
      batch_insert store rows = .ok (store ++ rows) := by
  intro rows
  induction rows with
  | nil => intro store _ _ _; simp [batch_insert]
  | cons r rest ih =>
      intro store hwf hnd hfresh
      have hwfr := hwf r (List.mem_cons_self _ _)
      obtain ⟨v, c, hv, hc, hk⟩ := rowKey_of_notNull r hwfr
      have hnotin := hfresh r (List.mem_cons_self _ _) (v, c) hk
      have hins : insertRow store r = .ok (store ++ [r]) := by
        simp [insertRow, hwfr, hk, hnotin]
      rw [batch_insert_cons, hins]
      simp only
      have hnd2 : r.vid ∉ rest.map (fun r => r.vid) ∧
          (rest.map (fun r => r.vid)).Nodup := by
        rw [List.map_cons] at hnd
        exact List.nodup_cons.mp hnd
      have hfresh2 : ∀ x ∈ rest, ∀ k, rowKey x = some k →
          k ∉ storeKeys (store ++ [r]) := by
        intro x hx k hkx hkmem
        have hkeys : storeKeys (store ++ [r])
            = storeKeys store ++ [(v, c)] := by
          unfold storeKeys
          rw [List.filterMap_append]
          simp [hk]
        rw [hkeys] at hkmem
        rcases List.mem_append.mp hkmem with hmem | hmem
        · exact hfresh x (List.mem_cons_of_mem _ hx) k hkx hmem
        · have hkvc : k = (v, c) := by simpa using hmem
          have hxvid := (rowKey_some x k hkx).1
          have hxr : x.vid = r.vid := by
            rw [hxvid, hkvc, hv]
          exact hnd2.1 (List.mem_map.mpr ⟨x, hx, hxr⟩)
      rw [ih (store ++ [r]) (fun x hx => hwf x (List.mem_cons_of_mem _ hx))
            hnd2.2 hfresh2]
      simp

/-- C4: run-wide deduplication is keyed solely on `vid`: an input with N
distinct `vid` values among M entries persists exactly N records, later
occurrences of a seen `vid` (even on another chromosome) are silently
skipped, and the first-seen variant for each `vid` is the one persisted. -/
theorem vid_dedup_run (ps : List Position)
    (hwf : ∀ r ∈ runRecords ps, rowNotNullOk r = true) :
    ingestMain [] ps = .ok (runRecords ps) ∧
    storeAfter [] ps = runRecords ps ∧
    runRecords ps = (dedupEntries [] (runEntries ps)).map buildEntry ∧
    (runRecords ps).length
      = ((runEntries ps).map (fun e => e.1.vid)).toFinset.card ∧
    ((runEntries ps).map (fun e => e.1.vid)).toFinset.card
      ≤ (runEntries ps).length ∧
    ((runRecords ps).map (fun r => r.vid)).Nodup ∧
    (∀ r ∈ runRecords ps, ∃ e,
      (runEntries ps).find? (fun x => decide (x.1.vid = r.vid)) = some e ∧
      r = buildEntry e) := by
  have hre := runRecords_entries ps
  have hvids : (runRecords ps).map (fun r => r.vid)
      = (dedupEntries [] (runEntries ps)).map (fun e => e.1.vid) := by
    rw [hre, List.map_map]
    rfl
  have hnd : ((runRecords ps).map (fun r => r.vid)).Nodup := by
    rw [hvids]
    exact (dedupEntries_vids_nodup (runEntries ps) []).2
  have hok : batch_insert [] (runRecords ps) = .ok ([] ++ runRecords ps) :=
    batch_insert_fresh (runRecords ps) [] hwf hnd
      (fun r _ k _ => by simp [storeKeys])
  refine ⟨?_, ?_, hre, ?_, ?_, hnd, ?_⟩
  · rw [ingestMain_eq, hok]
    simp
  · unfold storeAfter
    rw [ingestMain_eq, hok]
    simp
  · rw [hre, List.length_map, dedupEntries_length]
    simp
  · have := List.toFinset_card_le ((runEntries ps).map (fun e => e.1.vid))
    simpa using this
  · intro r hr
    rw [hre] at hr
    obtain ⟨e, heD, hbe⟩ := List.mem_map.mp hr
    obtain ⟨-, hfind⟩ := dedupEntries_first (runEntries ps) [] e heD
    refine ⟨e, ?_, hbe.symm⟩
    rw [← hbe]
    exact hfind

/-- Closed instance of `vid_dedup_run`: the witness input has M = 3 entries
with N = 2 distinct `vid` values (`a` appearing on two chromosomes), and
exactly 2 records are persisted. -/
theorem vid_dedup_run_witness :
    storeAfter [] wPs = runRecords wPs ∧
    (runEntries wPs).length = 3 ∧
    (runRecords wPs).length = 2 := by
  refine ⟨(vid_dedup_run wPs (by decide)).2.1, by decide, by decide⟩

/-!
Derived membership table lemmas and the rebuild invariant.
-/

/-- Membership in an unnested table. -/
theorem mem_unnestRows (attr : VariantRecord → Option (List String))
    (store : List VariantRecord) (m : MappingRow) :
    m ∈ unnestRows store attr ↔
      ∃ r ∈ store, ∃ xs, attr r = some xs ∧
        ∃ x ∈ xs, m = ⟨r.vid, r.chromosome, x⟩ := by
  unfold unnestRows
  rw [List.mem_flatMap]
  constructor
  · rintro ⟨r, hr, hm⟩
    cases h : attr r with
    | none => rw [h] at hm; cases hm
    | some xs =>
        rw [h] at hm
        obtain ⟨x, hx, rfl⟩ := List.mem_map.mp hm
        exact ⟨r, hr, xs, h, x, hx, rfl⟩
  · rintro ⟨r, hr, xs, hxs, x, hx, rfl⟩
    refine ⟨r, hr, ?_⟩
    rw [hxs]
    exact List.mem_map.mpr ⟨x, hx, rfl⟩

/-- Row count of an unnested table: the sum over all records of the
cardinality of the set-valued attribute, null attributes contributing
zero. -/
theorem unnestRows_length (attr : VariantRecord → Option (List String)) :
    ∀ store : List VariantRecord,
      (unnestRows store attr).length
        = (store.map (fun r => ((attr r).getD []).length)).sum := by
  intro store
  induction store with
  | nil => rfl
  | cons r rest ih =>
      unfold unnestRows
      rw [List.flatMap_cons]
      rw [List.length_append]
      unfold unnestRows at ih
      rw [ih]
      simp only [List.map_cons, List.sum_cons]
      congr 1
      cases h : attr r <;> simp [h]

/-- An unnested table over distinct-keyed records with duplicate-free
attribute lists has no duplicate rows. -/
theorem unnestRows_nodup (attr : VariantRecord → Option (List String)) :
    ∀ store : List VariantRecord,
      ((store.map (fun r => (r.vid, r.chromosome))).Nodup) →
      (∀ r ∈ store, ∀ xs, attr r = some xs → xs.Nodup) →
      (unnestRows store attr).Nodup := by
  intro store
  induction store with
  | nil => intro _ _; simp [unnestRows]
  | cons r rest ih =>
      intro hkeys hattr
      have hkeys2 : (r.vid, r.chromosome)
            ∉ rest.map (fun r => (r.vid, r.chromosome)) ∧
          (rest.map (fun r => (r.vid, r.chromosome))).Nodup := by
        rw [List.map_cons] at hkeys
        exact List.nodup_cons.mp hkeys
      unfold unnestRows
      rw [List.flatMap_cons, List.nodup_append]
      refine ⟨?_, ih hkeys2.2
        (fun x hx xs hxs => hattr x (List.mem_cons_of_mem _ hx) xs hxs), ?_⟩
      · cases h : attr r with
        | none => simp
        | some xs =>
            refine List.Nodup.map ?_ (hattr r (List.mem_cons_self _ _) xs h)
            intro a b hab
            simpa using hab
      · intro m hm1 hm2
        have hm1' : m.vid = r.vid ∧ m.chromosome = r.chromosome := by
          cases h : attr r with
          | none => rw [h] at hm1; cases hm1
          | some xs =>
              rw [h] at hm1
              obtain ⟨x, -, rfl⟩ := List.mem_map.mp hm1
              exact ⟨rfl, rfl⟩
        obtain ⟨r', hr', xs', -, x', -, rfl⟩ :=
          (mem_unnestRows attr rest m).mp hm2
        apply hkeys2.1
        have : (r'.vid, r'.chromosome) = (r.vid, r.chromosome) := by
          rw [← hm1'.1, ← hm1'.2]
        rw [← this]
        exact List.mem_map.mpr ⟨r', hr', rfl⟩

/-- Each element of a record's attribute appears exactly once in the
unnested table. -/
theorem unnestRows_count_one (attr : VariantRecord → Option (List String))
    (store : List VariantRecord)
    (hkeys : (store.map (fun r => (r.vid, r.chromosome))).Nodup)
    (hattr : ∀ r ∈ store, ∀ xs, attr r = some xs → xs.Nodup)
    (r : VariantRecord) (hr : r ∈ store) (xs : List String)
    (hxs : attr r = some xs) (x : String) (hx : x ∈ xs) :
    (unnestRows store attr).count ⟨r.vid, r.chromosome, x⟩ = 1 :=
  List.count_eq_one_of_mem (unnestRows_nodup attr store hkeys hattr)
    ((mem_unnestRows attr store _).mpr ⟨r, hr, xs, hxs, x, hx, rfl⟩)

/-- C7: each rebuilt membership table holds exactly one row
`(vid, chromosome, element)` per element of the corresponding set-valued
attribute of each record, and its row count is the sum of the attribute
cardinalities, with empty or null attributes contributing no rows. -/
theorem mapping_tables_rebuild (store : List VariantRecord)
    (hkeys : (store.map (fun r => (r.vid, r.chromosome))).Nodup)
    (hgene : ∀ r ∈ store, ∀ xs, r.gene_symbols = some xs → xs.Nodup)
    (hcons : ∀ r ∈ store, ∀ xs,
      r.transcript_consequences = some xs → xs.Nodup)
    (hclin : ∀ r ∈ store, ∀ xs,
      r.clinvar_classifications = some xs → xs.Nodup) :
    ((create_mapping_tables store).1.length
        = (store.map (fun r => ((r.gene_symbols).getD []).length)).sum ∧
      (create_mapping_tables store).2.1.length
        = (store.map
            (fun r => ((r.transcript_consequences).getD []).length)).sum ∧
      (create_mapping_tables store).2.2.length
        = (store.map
            (fun r => ((r.clinvar_classifications).getD []).length)).sum) ∧
    (∀ r ∈ store, ∀ xs, r.gene_symbols = some xs → ∀ x ∈ xs,
      (create_mapping_tables store).1.count ⟨r.vid, r.chromosome, x⟩ = 1) ∧
    (∀ r ∈ store, ∀ xs, r.transcript_consequences = some xs → ∀ x ∈ xs,
      (create_mapping_tables store).2.1.count ⟨r.vid, r.chromosome, x⟩ = 1) ∧
    (∀ r ∈ store, ∀ xs, r.clinvar_classifications = some xs → ∀ x ∈ xs,
      (create_mapping_tables store).2.2.count ⟨r.vid, r.chromosome, x⟩ = 1) := by
  refine ⟨⟨unnestRows_length _ store, unnestRows_length _ store,
    unnestRows_length _ store⟩, ?_, ?_, ?_⟩
  · intro r hr xs hxs x hx
    exact unnestRows_count_one _ store hkeys hgene r hr xs hxs x hx
  · intro r hr xs hxs x hx
    exact unnestRows_count_one _ store hkeys hcons r hr xs hxs x hx
  · intro r hr xs hxs x hx
    exact unnestRows_count_one _ store hkeys hclin r hr xs hxs x hx

/-- Closed instance of `mapping_tables_rebuild` on a two-record store:
row counts match attribute cardinalities and the scenario record's gene
row appears exactly once. -/
theorem mapping_tables_rebuild_witness :
    (create_mapping_tables [scenRec, recB]).1.length = 2 ∧
    (create_mapping_tables [scenRec, recB]).2.2.length = 1 ∧
    (create_mapping_tables [scenRec, recB]).1.count
      ⟨scenRec.vid, scenRec.chromosome, "BRCA1"⟩ = 1 := by
  have h := mapping_tables_rebuild [scenRec, recB] (by decide)
    (by decide) (by decide) (by decide)
  exact ⟨by decide, by decide,
    h.2.1 scenRec (by decide) ["BRCA1"] rfl "BRCA1" (by decide)⟩

/-!
Query engine lemmas: membership through joins, `DISTINCT`, ordering and
offset.
-/

/-- Membership through one inner join: the row survives exactly when some
membership-table row matches it on `(vid, chromosome)` and satisfies the
`WHERE` predicate. -/
theorem mem_joinFilter (rows : List VariantRecord) (table : List MappingRow)
    (pred : MappingRow → Bool) (r : VariantRecord) :
    r ∈ joinFilter rows table pred ↔
      r ∈ rows ∧ ∃ m ∈ table,
        (sqlEqStr m.vid r.vid && sqlEqStr m.chromosome r.chromosome &&
          pred m) = true := by
  unfold joinFilter
  rw [List.mem_flatMap]
  constructor
  · rintro ⟨r', hr', hm⟩
    obtain ⟨m, hmf, heq⟩ := List.mem_map.mp hm
    obtain ⟨hmt, hcond⟩ := List.mem_filter.mp hmf
    subst heq
    exact ⟨hr', m, hmt, hcond⟩
  · rintro ⟨hr, m, hm, hcond⟩
    exact ⟨r, hr, List.mem_map.mpr ⟨m, List.mem_filter.mpr ⟨hm, hcond⟩, rfl⟩⟩

/-- Over a consistent derived table, a join match on a stored row with
non-null key is equivalent to a predicate witness inside the row's own
set-valued attribute. -/
theorem mapping_match (store : List VariantRecord)
    (attr : VariantRecord → Option (List String)) (pred : MappingRow → Bool)
    (r : VariantRecord)
    (hkeys : (store.map (fun r => (r.vid, r.chromosome))).Nodup)
    (hr : r ∈ store) (hv : r.vid.isSome = true)
    (hc : r.chromosome.isSome = true) :
    (∃ m ∈ unnestRows store attr,
      (sqlEqStr m.vid r.vid && sqlEqStr m.chromosome r.chromosome &&
        pred m) = true) ↔
    (∃ xs, attr r = some xs ∧
      ∃ x ∈ xs, pred ⟨r.vid, r.chromosome, x⟩ = true) := by
  obtain ⟨v, hv'⟩ := Option.isSome_iff_exists.mp hv
  obtain ⟨c, hc'⟩ := Option.isSome_iff_exists.mp hc
  constructor
  · rintro ⟨m, hm, hcond⟩
    obtain ⟨r', hr', xs, hxs, x, hx, rfl⟩ :=
      (mem_unnestRows attr store m).mp hm
    simp only [Bool.and_eq_true] at hcond
    obtain ⟨⟨ha, hb⟩, hpred⟩ := hcond
    have hveq : r'.vid = r.vid := by
      cases hrv : r'.vid with
      | none => rw [hrv, hv'] at ha; simp [sqlEqStr] at ha
      | some v' =>
          rw [hrv, hv'] at ha
          simp only [sqlEqStr, decide_eq_true_eq] at ha
          rw [ha, hv']
    have hceq : r'.chromosome = r.chromosome := by
      cases hrc : r'.chromosome with
      | none => rw [hrc, hc'] at hb; simp [sqlEqStr] at hb
      | some c' =>
          rw [hrc, hc'] at hb
          simp only [sqlEqStr, decide_eq_true_eq] at hb
          rw [hb, hc']
    have hrr : r' = r := by
      refine List.inj_on_of_nodup_map hkeys hr' hr ?_
      rw [hveq, hceq]
    subst hrr
    exact ⟨xs, hxs, x, hx, by rw [← hveq, ← hceq] at hpred; exact hpred⟩
  · rintro ⟨xs, hxs, x, hx, hpred⟩
    refine ⟨⟨r.vid, r.chromosome, x⟩,
      (mem_unnestRows attr store _).mpr ⟨r, hr, xs, hxs, x, hx, rfl⟩, ?_⟩
    simp only [Bool.and_eq_true]
    exact ⟨⟨by rw [hv']; simp [sqlEqStr], by rw [hc']; simp [sqlEqStr]⟩, hpred⟩

/-- Composition step: joining a characterized row set against a consistent
derived table adds the corresponding attribute condition. -/
theorem mem_join_stage (store rows : List VariantRecord)
    (attr : VariantRecord → Option (List String)) (pred : MappingRow → Bool)
    (P : VariantRecord → Prop)
    (hrows : ∀ x, x ∈ rows ↔ x ∈ store ∧ P x)
    (hkeys : (store.map (fun r => (r.vid, r.chromosome))).Nodup)
    (hnn : ∀ x ∈ store, x.vid.isSome = true ∧ x.chromosome.isSome = true) :
    ∀ r, r ∈ joinFilter rows (unnestRows store attr) pred ↔
      r ∈ store ∧ P r ∧ ∃ xs, attr r = some xs ∧
        ∃ x ∈ xs, pred ⟨r.vid, r.chromosome, x⟩ = true := by
  intro r
  rw [mem_joinFilter, hrows r]
  constructor
  · rintro ⟨⟨hr, hP⟩, hex⟩
    exact ⟨hr, hP, (mapping_match store attr pred r hkeys hr
      (hnn r hr).1 (hnn r hr).2).mp hex⟩
  · rintro ⟨hr, hP, hex⟩
    exact ⟨⟨hr, hP⟩, (mapping_match store attr pred r hkeys hr
      (hnn r hr).1 (hnn r hr).2).mpr hex⟩

/-- Characterization of the gene stage. -/
theorem mem_geneStage (db : VariantDB) (a : QueryArgs)
    (hg : db.variant_genes
      = unnestRows db.variants (fun r => r.gene_symbols))
    (hkeys : (db.variants.map (fun r => (r.vid, r.chromosome))).Nodup)
    (hnn : ∀ x ∈ db.variants,
      x.vid.isSome = true ∧ x.chromosome.isSome = true) :
    ∀ r, r ∈ geneStage db a ↔ r ∈ db.variants ∧
      (geneActive a = true →
        ∃ xs, r.gene_symbols = some xs ∧ a.gene.getD "" ∈ xs) := by
  intro r
  unfold geneStage
  by_cases hga : geneActive a = true
  · rw [if_pos hga, hg]
    rw [mem_join_stage db.variants db.variants (fun r => r.gene_symbols)
      (fun m => m.value = a.gene.getD "") (fun _ => True) (by simp)
      hkeys hnn r]
    simp [hga]
  · rw [if_neg hga]
    simp [hga]

/-- Characterization of the clinvar stage. -/
theorem mem_clinvarStage (db : VariantDB) (a : QueryArgs)
    (hg : db.variant_genes
      = unnestRows db.variants (fun r => r.gene_symbols))
    (hcv : db.clinvar_classifications
      = unnestRows db.variants (fun r => r.clinvar_classifications))
    (hkeys : (db.variants.map (fun r => (r.vid, r.chromosome))).Nodup)
    (hnn : ∀ x ∈ db.variants,
      x.vid.isSome = true ∧ x.chromosome.isSome = true) :
    ∀ r, r ∈ clinvarStage db a ↔ r ∈ db.variants ∧
      (geneActive a = true →
        ∃ xs, r.gene_symbols = some xs ∧ a.gene.getD "" ∈ xs) ∧
      (clinvarActive a = true →
        ∃ xs, r.clinvar_classifications = some xs ∧
          ∃ x ∈ xs, x ∈ a.clinvar.getD []) := by
  intro r
  unfold clinvarStage
  by_cases hcl : clinvarActive a = true
  · rw [if_pos hcl, hcv]
    rw [mem_join_stage db.variants (geneStage db a)
      (fun r => r.clinvar_classifications)
      (fun m => m.value ∈ a.clinvar.getD [])
      (fun x => geneActive a = true →
        ∃ xs, x.gene_symbols = some xs ∧ a.gene.getD "" ∈ xs)
      (mem_geneStage db a hg hkeys hnn) hkeys hnn r]
    simp [hcl]
  · rw [if_neg hcl]
    rw [mem_geneStage db a hg hkeys hnn r]
    simp [hcl]

/-- Characterization of the consequence stage. -/
theorem mem_consequenceStage (db : VariantDB) (a : QueryArgs)
    (hg : db.variant_genes
      = unnestRows db.variants (fun r => r.gene_symbols))
    (hcv : db.clinvar_classifications
      = unnestRows db.variants (fun r => r.clinvar_classifications))
    (hcq : db.variant_consequences
      = unnestRows db.variants (fun r => r.transcript_consequences))
    (hkeys : (db.variants.map (fun r => (r.vid, r.chromosome))).Nodup)
    (hnn : ∀ x ∈ db.variants,
      x.vid.isSome = true ∧ x.chromosome.isSome = true) :
    ∀ r, r ∈ consequenceStage db a ↔ r ∈ db.variants ∧
      ((geneActive a = true →
        ∃ xs, r.gene_symbols = some xs ∧ a.gene.getD "" ∈ xs) ∧
      (clinvarActive a = true →
        ∃ xs, r.clinvar_classifications = some xs ∧
          ∃ x ∈ xs, x ∈ a.clinvar.getD [])) ∧
      (consequenceActive a = true →
        ∃ xs, r.transcript_consequences = some xs ∧
          ∃ x ∈ xs, x ∈ a.consequence.getD []) := by
  intro r
  unfold consequenceStage
  by_cases hcs : consequenceActive a = true
  · rw [if_pos hcs, hcq]
    rw [mem_join_stage db.variants (clinvarStage db a)
      (fun r => r.transcript_consequences)
      (fun m => m.value ∈ a.consequence.getD [])
      (fun x => (geneActive a = true →
          ∃ xs, x.gene_symbols = some xs ∧ a.gene.getD "" ∈ xs) ∧
        (clinvarActive a = true →
          ∃ xs, x.clinvar_classifications = some xs ∧
            ∃ y ∈ xs, y ∈ a.clinvar.getD []))
      (fun x => by
        rw [mem_clinvarStage db a hg hcv hkeys hnn x]) hkeys hnn r]
    simp [hcs]
  · rw [if_neg hcs]
    rw [mem_clinvarStage db a hg hcv hkeys hnn r]
    simp [hcs]

/-- Characterization of the full filter predicate of the query. -/
theorem mem_matchedRows (db : VariantDB) (a : QueryArgs)
    (hg : db.variant_genes
      = unnestRows db.variants (fun r => r.gene_symbols))
    (hcv : db.clinvar_classifications
      = unnestRows db.variants (fun r => r.clinvar_classifications))
    (hcq : db.variant_consequences
      = unnestRows db.variants (fun r => r.transcript_consequences))
    (hkeys : (db.variants.map (fun r => (r.vid, r.chromosome))).Nodup)
    (hnn : ∀ x ∈ db.variants,
      x.vid.isSome = true ∧ x.chromosome.isSome = true) :
    ∀ r, r ∈ matchedRows db a ↔ r ∈ db.variants ∧
      (geneActive a = true →
        ∃ xs, r.gene_symbols = some xs ∧ a.gene.getD "" ∈ xs) ∧
      (clinvarActive a = true →
        ∃ xs, r.clinvar_classifications = some xs ∧
          ∃ x ∈ xs, x ∈ a.clinvar.getD []) ∧
      (consequenceActive a = true →
        ∃ xs, r.transcript_consequences = some xs ∧
          ∃ x ∈ xs, x ∈ a.consequence.getD []) ∧
      (∀ f, a.max_gnomad_freq = some f → r.gnomad_af ≤ f) := by
  intro r
  unfold matchedRows
  cases hmf : a.max_gnomad_freq with
  | none =>
      rw [mem_consequenceStage db a hg hcv hcq hkeys hnn r]
      constructor
      · rintro ⟨h1, ⟨h2, h3⟩, h4⟩
        exact ⟨h1, h2, h3, h4, by intro f hf; cases hf⟩
      · rintro ⟨h1, h2, h3, h4, -⟩
        exact ⟨h1, ⟨h2, h3⟩, h4⟩
  | some f =>
      rw [List.mem_filter, mem_consequenceStage db a hg hcv hcq hkeys hnn r]
      simp only [decide_eq_true_eq]
      constructor
      · rintro ⟨⟨h1, ⟨h2, h3⟩, h4⟩, h5⟩
        refine ⟨h1, h2, h3, h4, ?_⟩
        intro f' hf'
        rw [show f' = f from (Option.some.inj hf').symm] at *
        exact h5
      · rintro ⟨h1, h2, h3, h4, h5⟩
        exact ⟨⟨h1, ⟨h2, h3⟩, h4⟩, h5 f rfl⟩

/-- C6: filters compose with AND across categories and OR within a
category, each active category restricting through its membership table
(gene: exact match; clinvar/consequence: list membership; gnomad: allele
frequency at most the supplied maximum), and a matching record appears
exactly once in the result even when multiple membership rows match. -/
theorem query_filter_composition (db : VariantDB) (a : QueryArgs)
    (hg : db.variant_genes = (create_mapping_tables db.variants).1)
    (hcq : db.variant_consequences = (create_mapping_tables db.variants).2.1)
    (hcv : db.clinvar_classifications
      = (create_mapping_tables db.variants).2.2)
    (hkeys : (db.variants.map (fun r => (r.vid, r.chromosome))).Nodup)
    (hnn : ∀ x ∈ db.variants,
      x.vid.isSome = true ∧ x.chromosome.isSome = true) :
    ∀ r,
      (r ∈ distinctRows db a ↔ r ∈ db.variants ∧
        (geneActive a = true →
          ∃ xs, r.gene_symbols = some xs ∧ a.gene.getD "" ∈ xs) ∧
        (clinvarActive a = true →
          ∃ xs, r.clinvar_classifications = some xs ∧
            ∃ x ∈ xs, x ∈ a.clinvar.getD []) ∧
        (consequenceActive a = true →
          ∃ xs, r.transcript_consequences = some xs ∧
            ∃ x ∈ xs, x ∈ a.consequence.getD []) ∧
        (∀ f, a.max_gnomad_freq = some f → r.gnomad_af ≤ f)) ∧
      List.count r (query_variants_page db a) ≤ 1 ∧
      (a.offset = 0 → r ∈ distinctRows db a →
        List.count r (query_variants_page db a) = 1) := by
  intro r
  have hmem := mem_matchedRows db a hg hcv hcq hkeys hnn r
  have hnd : (distinctRows db a).Nodup := List.nodup_dedup _
  refine ⟨?_, ?_, ?_⟩
  · unfold distinctRows
    rw [List.mem_dedup]
    exact hmem
  · calc List.count r (query_variants_page db a)
        ≤ List.count r (List.insertionSort recordLe (distinctRows db a)) :=
          (List.drop_sublist _ _).count_le r
      _ = List.count r (distinctRows db a) :=
          (List.perm_insertionSort recordLe _).count_eq r
      _ ≤ 1 := List.nodup_iff_count_le_one.mp hnd r
  · intro hoff hr
    unfold query_variants_page
    rw [hoff, List.drop_zero,
      (List.perm_insertionSort recordLe _).count_eq r]
    exact List.count_eq_one_of_mem hnd hr

/-- Closed instance of `query_filter_composition`: the one-record scenario
store is returned exactly once for `gene="BRCA1"`, excluded for
`gene="TP53"`, and excluded for `max_gnomad_freq=0.00001`. -/
theorem query_filter_composition_witness :
    query_variants_page scenDB argsBRCA = [scenRec] ∧
    query_variants_page scenDB argsTP53 = [] ∧
    query_variants_page scenDB argsFreq = [] ∧
    total_variants scenDB argsBRCA = 1 ∧
    List.count scenRec (query_variants_page scenDB argsBRCA) = 1 := by
  refine ⟨rfl, rfl, rfl, rfl, ?_⟩
  exact (query_filter_composition scenDB argsBRCA rfl rfl rfl
    (by decide) (by decide) scenRec).2.2 rfl (by decide)

/-- C1 (divergence): the query result is completely independent of the
`limit` argument — `query_variants` accepts and prints `limit` but never
attaches it to the query — and on a store with two matching rows a call
with `limit=1` returns a page of 2 rows, so the page is not bounded by the
caller-supplied page size. -/
theorem limit_never_applied :
    (∀ (db : VariantDB) (g : Option String) (cv cq : Option (List String))
        (f : Option ℚ) (l₁ l₂ : Int) (o : Nat),
      query_variants_page db ⟨g, cv, cq, f, l₁, o⟩
        = query_variants_page db ⟨g, cv, cq, f, l₂, o⟩) ∧
    argsL1o0.limit = 1 ∧
    (query_variants_page twoRowDB argsL1o0).length = 2 := by
  refine ⟨?_, rfl, rfl⟩
  intro db g cv cq f l₁ l₂ o
  rfl

/-- C2 (divergence): the total count dominates any page length in general,
but because no `LIMIT` is attached, consecutive pages taken with
`offset=0, limit=1` and `offset=1, limit=1` are not disjoint: the page at
offset 0 contains every matching row, overlapping the page at offset 1. -/
theorem paging_pages_overlap :
    (∀ (db : VariantDB) (a : QueryArgs),
      (query_variants_page db a).length ≤ total_variants db a) ∧
    total_variants twoRowDB argsL1o0 = 2 ∧
    argsL1o0.limit = 1 ∧ argsL1o1.limit = 1 ∧
    argsL1o1.offset = argsL1o0.offset + 1 ∧
    query_variants_page twoRowDB argsL1o0 = [recA, recB] ∧
    query_variants_page twoRowDB argsL1o1 = [recB] ∧
    recB ∈ query_variants_page twoRowDB argsL1o0 ∧
    recB ∈ query_variants_page twoRowDB argsL1o1 := by
  refine ⟨?_, rfl, rfl, rfl, rfl, rfl, rfl, by decide, by decide⟩
  intro db a
  unfold query_variants_page total_variants
  rw [List.length_drop]
  have hp := (List.perm_insertionSort recordLe (distinctRows db a)).length_eq
  omega
